import Mathlib

/-!
Verification development for the local-branch-cleaner repository.

The repository ships a React frontend (src/frontend/src/App.jsx and its
components) that consumes a stream of analysis events over a websocket and
issues REST requests for deletion, checkout and diff detail.  The backend
that produces the events (orchestrator, branch classifier, authoritative-PR
selection, diff endpoints) is not part of the source tree; definitions for
those parts are modelled from the specification and marked as such in their
doc comments.  Everything else is a direct shallow embedding of the
JavaScript source.
-/

/-! ## Data model (shapes of the records exchanged over the stream) -/

/-- A pull-request record as it appears in the `prs` array of a branch
record (number, state string, title, url), extended with the
`updatedAt` ordinal used by the spec-modelled selection rule. -/
structure PullRequestRef where
  number : Nat
  state : String
  title : Option String
  url : Option String
  updatedAt : Nat
deriving DecidableEq

/-- A branch record as delivered by a `branch` event
(the AnalysisResult-shaped record of section 6 of the spec). -/
structure BranchRec where
  name : String
  status : Option String
  prs : List PullRequestRef
  has_differences : Bool
  has_remote_branch : Bool
  error : Option String
deriving DecidableEq

/-- Payload of the `repo_info` event. -/
structure RepoInfo where
  path : String
  remote_url : Option String
  main_branch : String
  total_branches : Nat
deriving DecidableEq

/-- The `progress` React state: current and total counters. -/
structure ProgressState where
  current : Nat
  total : Nat
deriving DecidableEq

/-- The `confirmDialog` React state (the `branchesWithRemotes` display list
is omitted: it only feeds the dialog text, never any request). -/
structure ConfirmDialogState where
  isOpen : Bool
  branches : List String
  includeRemote : Bool
deriving DecidableEq

/-- Streaming channel message types, from the `ws.onmessage` switch in
App.jsx and section 6 of the spec. -/
inductive WsMsg where
  | repo_info (info : RepoInfo)
  | status (message : String)
  | progress (current total : Nat)
  | branch (data : BranchRec)
  | complete
  | error (message : String)
  | ping
deriving DecidableEq

/-- The consumer state held by the App component (the slices touched by the
websocket handler and the delete flow). -/
structure ConsumerState where
  branches : List BranchRec
  loading : Bool
  progress : ProgressState
  selectedBranches : List String
  statusMessage : String
  repoInfo : Option RepoInfo
  confirmDialog : ConfirmDialogState

/-- Consumer state right after the websocket opens: `ws.onopen` clears the
branch list, sets loading and resets progress (App.jsx lines 121-126). -/
def initialState : ConsumerState :=
  { branches := []
    loading := true
    progress := { current := 0, total := 0 }
    selectedBranches := []
    statusMessage := ""
    repoInfo := none
    confirmDialog := { isOpen := false, branches := [], includeRemote := false } }

/-- The `ws.onmessage` switch of App.jsx (lines 128-179): one case per
message type.  `repo_info` stores the info and clears the branch list;
`progress` stores the max of the previous and incoming current counter and
the incoming total; `branch` appends unless the name is already present;
`complete` and `error` stop the loading state; `ping` is ignored. -/
def handleMessage (s : ConsumerState) : WsMsg → ConsumerState
  | .repo_info info => { s with repoInfo := some info, branches := [] }
  | .status m => { s with statusMessage := m }
  | .progress c t =>
      { s with progress := { current := max s.progress.current c, total := t } }
  | .branch d =>
      if s.branches.any (fun b => b.name == d.name) then s
      else { s with branches := s.branches ++ [d] }
  | .complete => { s with loading := false, statusMessage := "" }
  | .error m => { s with loading := false, statusMessage := "Error: " ++ m }
  | .ping => s

/-! ## Outgoing requests and user actions -/

/-- REST requests the frontend can issue. -/
inductive Request where
  | deleteBranch (name : String) (deleteRemote : Bool)
  | getDiff (branchName : String) (prNumber : Nat)
  | checkout (name : String)
deriving DecidableEq

/-- JavaScript `prNumber || 0` from `viewDiff` (App.jsx line 394): a missing
PR number (and the number 0 itself) collapses to 0. -/
def effectivePrNumber (prNumber : Option Nat) : Nat :=
  prNumber.getD 0

/-- The body of `confirmDelete` (App.jsx lines 364-389): iterate over the
confirmed branch names; for each, issue the delete request; when it
succeeds, filter the branch out of the branch list and the selection set;
when it fails, leave both untouched and continue with the next name.
`succeeds` abstracts the outcome of each HTTP call.  Returns the final
branch list, the final selection set, and the requests issued in order. -/
def confirmDeleteLoop (succeeds : String → Bool) (includeRemote : Bool) :
    List String → List BranchRec → List String →
    List BranchRec × List String × List Request
  | [], bs, sel => (bs, sel, [])
  | name :: rest, bs, sel =>
    if succeeds name then
      let next := confirmDeleteLoop succeeds includeRemote rest
        (bs.filter (fun b => !(b.name == name)))
        (sel.filter (fun n => !(n == name)))
      (next.1, next.2.1, Request.deleteBranch name includeRemote :: next.2.2)
    else
      let next := confirmDeleteLoop succeeds includeRemote rest bs sel
      (next.1, next.2.1, Request.deleteBranch name includeRemote :: next.2.2)

/-- User-driven or stream-driven steps of the App component.  `ws` covers
every message arriving on the stream; the remaining constructors are the
user interactions that can change the modelled state or issue requests. -/
inductive AppAction where
  | ws (m : WsMsg)
  | openDeleteDialog (names : List String) (includeRemote : Bool)
  | cancelDeleteDialog
  | confirmDeleteDialog (succeeds : String → Bool)
  | toggleBranchSelection (name : String)
  | clearSelection
  | viewDiff (branchName : String) (prNumber : Option Nat)
  | checkoutBranch (name : String)

/-- True exactly on the action of confirming the delete dialog. -/
def AppAction.isConfirmDelete : AppAction → Bool
  | .confirmDeleteDialog _ => true
  | _ => false

/-- `toggleBranchSelection` from App.jsx (lines 315-325): remove the name
when present, add it otherwise. -/
def toggleSelection (sel : List String) (name : String) : List String :=
  if sel.contains name then sel.filter (fun n => !(n == name))
  else sel ++ [name]

/-- One step of the App component: maps an action to the next state and the
list of REST requests issued by that step.  Websocket messages go through
`handleMessage` and issue nothing; `openDeleteDialog` is `handleDelete`
(App.jsx lines 345-362), which only opens the dialog; requests are issued
by `confirmDeleteDialog` (the `confirmDelete` callback), `viewDiff` and
`checkoutBranch`. -/
def step (s : ConsumerState) : AppAction → ConsumerState × List Request
  | .ws m => (handleMessage s m, [])
  | .openDeleteDialog names r =>
      ({ s with confirmDialog := { isOpen := true, branches := names, includeRemote := r } }, [])
  | .cancelDeleteDialog =>
      ({ s with confirmDialog := { isOpen := false, branches := [], includeRemote := false } }, [])
  | .confirmDeleteDialog succeeds =>
      let r := confirmDeleteLoop succeeds s.confirmDialog.includeRemote
        s.confirmDialog.branches s.branches s.selectedBranches
      let closed : ConfirmDialogState :=
        { isOpen := false, branches := [], includeRemote := false }
      ({ s with branches := r.1, selectedBranches := r.2.1, confirmDialog := closed }, r.2.2)
  | .toggleBranchSelection name =>
      ({ s with selectedBranches := toggleSelection s.selectedBranches name }, [])
  | .clearSelection => ({ s with selectedBranches := [] }, [])
  | .viewDiff branchName prNumber =>
      (s, [Request.getDiff branchName (effectivePrNumber prNumber)])
  | .checkoutBranch name => (s, [Request.checkout name])

/-! ## Branch classification -/

/-- State of the authoritative pull request. -/
inductive PRState where
  | OPEN
  | MERGED
  | CLOSED
deriving DecidableEq

/-- Outcome of diff reconciliation (section 3 of the spec). -/
inductive ReconResult where
  | equivalent
  | different
  | indeterminate
deriving DecidableEq

/-- The five branch categories. -/
inductive Category where
  | safe_to_delete
  | review_required
  | closed_pr
  | active
  | no_pr
deriving DecidableEq

/-- The string key each category uses on the stream and in the UI. -/
def Category.key : Category → String
  | .safe_to_delete => "safe_to_delete"
  | .review_required => "review_required"
  | .closed_pr => "closed_pr"
  | .active => "active"
  | .no_pr => "no_pr"

/-- The keys of the BRANCH_CATEGORIES object of App.jsx (lines 38-79), in
declaration order; the render loop iterates exactly over these. -/
def BRANCH_CATEGORIES_keys : List String :=
  ["safe_to_delete", "review_required", "closed_pr", "active", "no_pr"]

/-- Modelled from the spec: the BranchClassifier (section 4.4) lives in the
backend, which is not under src/.  It maps the authoritative PR state
(none when the branch has no PR) and the reconciliation result to a
category; the reconciliation argument is only inspected when the PR is
MERGED, since reconciliation is only computed in that case. -/
def classify : Option PRState → ReconResult → Category
  | none, _ => .no_pr
  | some .OPEN, _ => .active
  | some .CLOSED, _ => .closed_pr
  | some .MERGED, .equivalent => .safe_to_delete
  | some .MERGED, .different => .review_required
  | some .MERGED, .indeterminate => .review_required

/-! ## Consumer-side categorization (App.jsx categorizedBranches) -/

/-- Prefix test on character lists, used to embed the JavaScript
String.includes test. -/
def isPrefixChars : List Char → List Char → Bool
  | [], _ => true
  | _ :: _, [] => false
  | a :: as, b :: bs => a == b && isPrefixChars as bs

/-- Substring test on character lists: the needle occurs at some position
of the haystack. -/
def containsChars : List Char → List Char → Bool
  | [], needle => needle.isEmpty
  | h :: t, needle => isPrefixChars needle (h :: t) || containsChars t needle

/-- JavaScript `hay.includes(needle)`. -/
def jsIncludes (hay needle : String) : Bool :=
  containsChars hay.data needle.data

/-- JavaScript `s.toLowerCase()`, restricted to per-character lowering. -/
def jsToLower (s : String) : String :=
  ⟨s.data.map Char.toLower⟩

/-- JavaScript `a || b` on an optional string: a missing or empty string
falls back to the default. -/
def jsOr (s : Option String) (dflt : String) : String :=
  match s with
  | none => dflt
  | some v => if v == "" then dflt else v

/-- The search predicate of `categorizedBranches` (App.jsx lines 206-211):
the query matches the branch name or some PR title, case-insensitively. -/
def matchesSearch (searchQuery : String) (b : BranchRec) : Bool :=
  jsIncludes (jsToLower b.name) (jsToLower searchQuery) ||
  b.prs.any (fun pr =>
    (pr.title.map (fun t => jsIncludes (jsToLower t) (jsToLower searchQuery))).getD false)

/-- The combined search and state filter (App.jsx lines 213-214). -/
def branchFilter (searchQuery filterState : String) (b : BranchRec) : Bool :=
  if filterState == "all" then matchesSearch searchQuery b
  else matchesSearch searchQuery b && (b.status == some filterState)

/-- The branches surviving search and state filtering. -/
def filteredBranches (branches : List BranchRec) (q f : String) : List BranchRec :=
  branches.filter (branchFilter q f)

/-- The category key a branch is grouped under (App.jsx line 218):
`branch.status || "no_pr"`. -/
def categoryOf (b : BranchRec) : String :=
  jsOr b.status "no_pr"

/-- The `categorizedBranches` grouping (App.jsx lines 205-223), read as a
function from category key to the branches grouped under that key. -/
def categorizedBranches (branches : List BranchRec) (q f cat : String) : List BranchRec :=
  (filteredBranches branches q f).filter (fun b => categoryOf b == cat)

/-! ## Spec-modelled analysis producer -/

/-- Payload of a successful per-branch analysis, before it is wrapped into
the emitted branch record. -/
structure BranchAnalysis where
  status : String
  prs : List PullRequestRef
  has_differences : Bool
  has_remote_branch : Bool
deriving DecidableEq

/-- Modelled from the spec: how the backend wraps one finished per-branch
task into the emitted AnalysisResult (sections 4.5 and 7, backend not under
src/).  A task failure is captured as an error field on that branch result
and the branch is classified conservatively as review_required. -/
def resultFor (n : String) : Except String BranchAnalysis → BranchRec
  | .ok a =>
      { name := n, status := some a.status, prs := a.prs,
        has_differences := a.has_differences,
        has_remote_branch := a.has_remote_branch, error := none }
  | .error e =>
      { name := n, status := some "review_required", prs := [],
        has_differences := false, has_remote_branch := false, error := some e }

/-- Modelled from the spec: the AnalysisOrchestrator event stream
(section 4.5, backend not under src/).  A session emits `repo_info` first,
then exactly one `branch` event per local branch discovered at session
start (carrying either the analysis or a captured error), then the
terminal `complete` event. -/
def orchestrate (info : RepoInfo) (analyze : String → Except String BranchAnalysis)
    (branchNames : List String) : List WsMsg :=
  WsMsg.repo_info info ::
    (branchNames.map (fun n => WsMsg.branch (resultFor n (analyze n))) ++ [WsMsg.complete])

/-- The branch name carried by a `branch` event, if any. -/
def branchEventName : WsMsg → Option String
  | .branch d => some d.name
  | _ => none

/-! ## Authoritative PR selection -/

/-- The step of the running most-recently-updated maximum. -/
def mruStep (best : Option PullRequestRef) (p : PullRequestRef) : Option PullRequestRef :=
  match best with
  | none => some p
  | some q => if q.updatedAt < p.updatedAt then some p else some q

/-- The PR with the greatest updatedAt in the list (ties keep the earlier
element), none for the empty list. -/
def mostRecentlyUpdated (prs : List PullRequestRef) : Option PullRequestRef :=
  prs.foldl mruStep none

/-- The first MERGED PR in the list; this is the `mergedPR` lookup of
BranchCard.jsx (line 57) and of the Enter and o key handlers in App.jsx. -/
def findMergedPR (prs : List PullRequestRef) : Option PullRequestRef :=
  prs.find? (fun pr => pr.state == "MERGED")

/-- Modelled from the spec: the authoritative-PR selection rule
(section 4.2, backend not under src/): prefer a PR in state MERGED; else
the most recently updated OPEN PR; else the most recently updated CLOSED
PR. -/
def selectAuthoritativePR (prs : List PullRequestRef) : Option PullRequestRef :=
  match findMergedPR prs with
  | some p => some p
  | none =>
    match mostRecentlyUpdated (prs.filter (fun p => p.state == "OPEN")) with
    | some p => some p
    | none => mostRecentlyUpdated (prs.filter (fun p => p.state == "CLOSED"))

/-- The PR opened by the o key handler (App.jsx lines 519-526):
`prs.find(MERGED) || prs[0]`. -/
def frontendOpenPR (prs : List PullRequestRef) : Option PullRequestRef :=
  match findMergedPR prs with
  | some p => some p
  | none => prs.head?

/-! ## Diff detail requests and presentation -/

/-- JavaScript falsiness of an optional number: undefined, null and 0 are
falsy. -/
def jsFalsyNat : Option Nat → Bool
  | none => true
  | some 0 => true
  | some (_ + 1) => false

/-- The PR-number argument the App onViewDiff wrapper passes to `viewDiff`
(App.jsx lines 803-811): null when the branch has no differences or the
incoming PR number is falsy, the incoming number otherwise. -/
def onViewDiffArg (has_differences : Bool) (prNumber : Option Nat) : Option Nat :=
  if !has_differences || jsFalsyNat prNumber then none else prNumber

/-- Whether BranchCard shows the view-differences eye button
(BranchCard.jsx line 160): only when the branch has differences and a
MERGED PR exists. -/
def cardShowsViewDiffButton (b : BranchRec) : Bool :=
  b.has_differences && (findMergedPR b.prs).isSome

/-- The PR number the Enter key handler passes to `viewDiff`
(App.jsx lines 487-497): the number of the first MERGED PR, if any. -/
def enterKeyPrNumber (b : BranchRec) : Option Nat :=
  (findMergedPR b.prs).map (fun pr => pr.number)

/-- The diff request issued when the user presses Enter on a highlighted
branch: `viewDiff(branch, mergedPR?.number)`. -/
def enterKeyDiffRequest (b : BranchRec) : Request :=
  Request.getDiff b.name (effectivePrNumber (enterKeyPrNumber b))

/-- A per-file change record of a DiffSet as returned by the diff-detail
endpoint (filename plus git status letter). -/
structure FileChange where
  filename : String
  status : String
deriving DecidableEq

/-- The diff-detail response shape consumed by DiffViewer. -/
structure DiffDetail where
  is_merge_base_diff : Bool
  branch_files : List FileChange
  pr_files : List FileChange
deriving DecidableEq

/-- Modelled from the spec: the diff-detail endpoint (section 6, backend
not under src/).  A request with PR number 0 means no specific PR, so the
returned data is the diff against the merge base; a nonzero PR number
yields the PR comparison. -/
def diffDetailResponse (prNumber : Nat) (branchFiles prFiles : List FileChange) : DiffDetail :=
  { is_merge_base_diff := prNumber == 0, branch_files := branchFiles, pr_files := prFiles }

/-- The left diff pane title of DiffViewer (DiffViewer.jsx lines 437-439). -/
def diffViewerLeftTitle (d : DiffDetail) : String :=
  if d.is_merge_base_diff then "Merge Base" else "Merged PR"

/-! ## DiffViewer file-list parsing -/

/-- One entry of the DiffViewer file list. -/
structure ParsedFile where
  filename : String
  status : String
  branchStatus : Option String
  prStatus : Option String
deriving DecidableEq

/-- JavaScript `new Map(list).get(key)`: the last record with the given
filename, since later Map entries overwrite earlier ones. -/
def mapGet (files : List FileChange) (fn : String) : Option FileChange :=
  files.reverse.find? (fun f => f.filename == fn)

/-- Insertion into a JavaScript Set: keep the list unchanged when the
element is present, append it otherwise. -/
def insertUnique (l : List String) (x : String) : List String :=
  if l.contains x then l else l ++ [x]

/-- The `allFiles` Set of DiffViewer parsedDiffs (DiffViewer.jsx lines
51-53): every filename of either DiffSet, once. -/
def allFilenames (branchFiles prFiles : List FileChange) : List String :=
  ((branchFiles ++ prFiles).map (fun f => f.filename)).foldl insertUnique []

/-- The per-file status classification of parsedDiffs (DiffViewer.jsx
lines 59-68). -/
def fileStatus (branchFile prFile : Option FileChange) : String :=
  match prFile with
  | none => "added-in-branch"
  | some _ =>
    match branchFile with
    | none => "removed-in-branch"
    | some bf =>
      if bf.status == "A" then "added"
      else if bf.status == "D" then "deleted"
      else "modified"

/-- Lexicographic comparison of character lists by code point, embedding
the filename sort of DiffViewer. -/
def lexLe : List Char → List Char → Bool
  | [], _ => true
  | _ :: _, [] => false
  | a :: as, b :: bs =>
    if a.toNat < b.toNat then true
    else if b.toNat < a.toNat then false
    else lexLe as bs

/-- The file-list order: by filename. -/
def fileLE (a b : ParsedFile) : Prop :=
  lexLe a.filename.data b.filename.data = true

instance : DecidableRel fileLE :=
  fun a b => inferInstanceAs (Decidable (lexLe a.filename.data b.filename.data = true))

/-- The file-list entry built for one filename by parsedDiffs
(DiffViewer.jsx lines 55-76). -/
def parsedFileFor (branch_files pr_files : List FileChange) (fn : String) : ParsedFile :=
  let branchFile := mapGet branch_files fn
  let prFile := mapGet pr_files fn
  { filename := fn, status := fileStatus branchFile prFile,
    branchStatus := branchFile.map (fun f => f.status),
    prStatus := prFile.map (fun f => f.status) }

/-- The `parsedDiffs` computation of DiffViewer (DiffViewer.jsx lines
43-85): build filename-indexed maps of both DiffSets, take every filename
of either, classify each, and sort the resulting list by filename. -/
def parsedDiffs (branch_files pr_files : List FileChange) : List ParsedFile :=
  List.insertionSort fileLE
    ((allFilenames branch_files pr_files).map (parsedFileFor branch_files pr_files))

/-! ## Event-sequence folding and concrete example inputs -/

/-- Fold a sequence of progress events into the consumer state. -/
def applyProgressEvents (events : List (Nat × Nat)) (s : ConsumerState) : ConsumerState :=
  events.foldl (fun s e => handleMessage s (WsMsg.progress e.1 e.2)) s

/-- Fold a sequence of branch events into the consumer state. -/
def applyBranchEvents (events : List BranchRec) (s : ConsumerState) : ConsumerState :=
  events.foldl (fun s d => handleMessage s (WsMsg.branch d)) s

/-- A branch record with no pull request, used as a concrete input. -/
def branchX : BranchRec :=
  { name := "x", status := none, prs := [], has_differences := false,
    has_remote_branch := false, error := none }

/-- A consumer state already holding `branchX`, used as a concrete input. -/
def stateWithX : ConsumerState :=
  { initialState with branches := [branchX] }

/-- A consumer state whose delete dialog is open on one branch, used as a
concrete input. -/
def confirmWitnessState : ConsumerState :=
  { initialState with
    confirmDialog := { isOpen := true, branches := ["feature-a"], includeRemote := false } }

/-- A MERGED pull request, used as a concrete input. -/
def prMerged : PullRequestRef :=
  { number := 42, state := "MERGED", title := none, url := none, updatedAt := 5 }

/-- An OPEN pull request, used as a concrete input. -/
def prOpen : PullRequestRef :=
  { number := 43, state := "OPEN", title := none, url := none, updatedAt := 7 }

/-- A two-element PR list containing a MERGED PR, used as a concrete
input. -/
def c5prs : List PullRequestRef :=
  [prOpen, prMerged]

/-- A CLOSED pull request with an older update time, used as a concrete
input. -/
def prClosed : PullRequestRef :=
  { number := 40, state := "CLOSED", title := none, url := none, updatedAt := 10 }

/-- An OPEN pull request updated more recently than prClosed, used as a
concrete input. -/
def prOpen2 : PullRequestRef :=
  { number := 41, state := "OPEN", title := none, url := none, updatedAt := 20 }

/-- A two-element PR list with no MERGED PR whose first entry is the CLOSED
PR while the more recently updated OPEN PR comes second, used as a
concrete input. -/
def c5BadPrs : List PullRequestRef :=
  [prClosed, prOpen2]

/-- A repo-info payload, used as a concrete input. -/
def repoInfo0 : RepoInfo :=
  { path := "/r", remote_url := none, main_branch := "main", total_branches := 1 }

/-- A branch with a MERGED PR but no differences: the failing input for the
claim that such a branch is always diffed against the merge base. -/
def c7FailingBranch : BranchRec :=
  { name := "feature-x", status := some "safe_to_delete", prs := [prMerged],
    has_differences := false, has_remote_branch := false, error := none }

/-- A one-file branch DiffSet, used as a concrete input. -/
def c10BranchFiles : List FileChange :=
  [{ filename := "a.txt", status := "A" }]

/-- A one-file PR DiffSet, used as a concrete input. -/
def c10PrFiles : List FileChange :=
  [{ filename := "b.txt", status := "M" }]

/-! ## Helper lemmas -/

/-- The empty needle occurs in every haystack. -/
theorem containsChars_nil (hay : List Char) : containsChars hay [] = true := by
  cases hay with
  | nil => rfl
  | cons h t => rfl

/-- Every branch matches the empty search query. -/
theorem matchesSearch_empty (b : BranchRec) : matchesSearch "" b = true := by
  have h : jsIncludes (jsToLower b.name) (jsToLower "") = true := containsChars_nil _
  simp [matchesSearch, h]

/-! ## Claim theorems -/

/-- Claim C1: branch classification is a deterministic, total, five-way
mapping: no PR yields no_pr; an OPEN authoritative PR yields active
whatever the (never computed) reconciliation argument is; CLOSED yields
closed_pr; MERGED with equivalent reconciliation yields safe_to_delete;
MERGED with different or indeterminate reconciliation yields
review_required; and every produced category key is one of the five
BRANCH_CATEGORIES keys of App.jsx. -/
theorem classifier_five_way_table :
    (∀ r, classify none r = Category.no_pr) ∧
    (∀ r, classify (some PRState.OPEN) r = Category.active) ∧
    (∀ r, classify (some PRState.CLOSED) r = Category.closed_pr) ∧
    classify (some PRState.MERGED) ReconResult.equivalent = Category.safe_to_delete ∧
    classify (some PRState.MERGED) ReconResult.different = Category.review_required ∧
    classify (some PRState.MERGED) ReconResult.indeterminate = Category.review_required ∧
    (∀ ps r, (classify ps r).key ∈ BRANCH_CATEGORIES_keys) := by
  refine ⟨fun r => by cases r <;> rfl, fun r => by cases r <;> rfl,
    fun r => by cases r <;> rfl, rfl, rfl, rfl, ?_⟩
  rintro (_ | ps) r
  · simp [classify, Category.key, BRANCH_CATEGORIES_keys]
  · cases ps <;> cases r <;> simp [classify, Category.key, BRANCH_CATEGORIES_keys]

/-- Claim C6: processing a ping message is a no-op: the whole consumer
state (branch list, progress counters, repo info, loading flag, status
message, selection, dialog) is unchanged, and no request is issued. -/
theorem ping_is_noop :
    ∀ s : ConsumerState,
    handleMessage s WsMsg.ping = s ∧ step s (AppAction.ws WsMsg.ping) = (s, []) :=
  fun _ => ⟨rfl, rfl⟩

/-- Claim C4: branches are never auto-deleted.  A step driven by any
incoming stream message issues no request at all, and any step that issues
a branch-deletion request is the user confirming the delete dialog. -/
theorem delete_only_on_confirm :
    (∀ (s : ConsumerState) (m : WsMsg), (step s (AppAction.ws m)).2 = []) ∧
    (∀ (s : ConsumerState) (a : AppAction),
      (∃ n r, Request.deleteBranch n r ∈ (step s a).2) → a.isConfirmDelete = true) := by
  constructor
  · intro s m; rfl
  · intro s a h
    obtain ⟨n, r, hmem⟩ := h
    cases a with
    | ws m => simp [step] at hmem
    | openDeleteDialog names ir => simp [step] at hmem
    | cancelDeleteDialog => simp [step] at hmem
    | confirmDeleteDialog succeeds => rfl
    | toggleBranchSelection name => simp [step] at hmem
    | clearSelection => simp [step] at hmem
    | viewDiff bn pn => simp [step] at hmem
    | checkoutBranch name => simp [step] at hmem

/-- Witness for C4 at a concrete input: confirming a dialog open on one
branch does issue a delete request, and that action is the confirm
action. -/
theorem delete_only_on_confirm_witness :
    (∃ n r, Request.deleteBranch n r ∈
      (step confirmWitnessState (AppAction.confirmDeleteDialog (fun _ => true))).2) ∧
    (AppAction.confirmDeleteDialog (fun _ => true)).isConfirmDelete = true :=
  ⟨⟨"feature-a", false, by decide⟩,
    delete_only_on_confirm.2 confirmWitnessState
      (AppAction.confirmDeleteDialog (fun _ => true)) ⟨"feature-a", false, by decide⟩⟩

/-- Claim C3 counterexample: the consumer accepts any processed sequence of
progress events, and after the two events (current 2, total 2) then
(current 0, total 1) the stored counter is current 2 with total 1, so the
stored current exceeds the stored total: the claim, stated over every
sequence of processed progress events, is false at this input. -/
theorem progress_exceeds_total_counterexample :
    (handleMessage (handleMessage initialState (WsMsg.progress 2 2))
        (WsMsg.progress 0 1)).progress.total <
      (handleMessage (handleMessage initialState (WsMsg.progress 2 2))
        (WsMsg.progress 0 1)).progress.current := by
  decide

/-- The stored progress counter stays at most the stored total throughout a
session whose events all carry the session-fixed total and a current value
bounded by it. -/
theorem applyProgressEvents_le (events : List (Nat × Nat)) (T : Nat) :
    ∀ s : ConsumerState,
    (∀ e ∈ events, e.1 ≤ T ∧ e.2 = T) →
    s.progress.current ≤ s.progress.total →
    (s.progress.total = T ∨ (s.progress.current = 0 ∧ s.progress.total = 0)) →
    (applyProgressEvents events s).progress.current ≤
      (applyProgressEvents events s).progress.total := by
  induction events with
  | nil => intro s _ h _; exact h
  | cons e rest ih =>
    intro s hev hle hT
    obtain ⟨he1, he2⟩ := hev e (List.mem_cons_self e rest)
    have hcur : s.progress.current ≤ T := by
      rcases hT with h | ⟨h0, _⟩
      · exact h ▸ hle
      · exact h0 ▸ Nat.zero_le T
    refine ih (handleMessage s (WsMsg.progress e.1 e.2)) ?_ ?_ ?_
    · intro e2 h2; exact hev e2 (List.mem_cons_of_mem e h2)
    · show max s.progress.current e.1 ≤ e.2
      rw [he2]
      exact max_le hcur he1
    · left; exact he2

/-- Claim C3 amended: the stored progress counter is non-decreasing across
every processed message, and it never exceeds the stored total provided
every processed progress event carries a current value at most its total
and the same session-fixed total (which the producer guarantees; the
consumer itself does not enforce the bound, as the counterexample
shows). -/
theorem progress_monotonic_amended :
    (∀ (s : ConsumerState) (m : WsMsg),
      s.progress.current ≤ (handleMessage s m).progress.current) ∧
    (∀ (events : List (Nat × Nat)) (T : Nat),
      (∀ e ∈ events, e.1 ≤ T ∧ e.2 = T) →
      (applyProgressEvents events initialState).progress.current ≤
        (applyProgressEvents events initialState).progress.total) := by
  constructor
  · intro s m
    cases m with
    | progress c t => exact Nat.le_max_left _ _
    | branch d =>
        show s.progress.current ≤ (if _ then s else _).progress.current
        split <;> exact le_refl _
    | repo_info info => exact le_refl _
    | status m => exact le_refl _
    | complete => exact le_refl _
    | error m => exact le_refl _
    | ping => exact le_refl _
  · intro events T hev
    exact applyProgressEvents_le events T initialState hev (le_refl 0) (Or.inr ⟨rfl, rfl⟩)

/-- Witness for the amended C3 at a concrete input: a well-formed event
sequence with fixed total 3 keeps the stored current at most the stored
total. -/
theorem progress_monotonic_amended_witness :
    (∀ e ∈ [((1 : Nat), (3 : Nat)), (2, 3)], e.1 ≤ 3 ∧ e.2 = 3) ∧
    (applyProgressEvents [(1, 3), (2, 3)] initialState).progress.current ≤
      (applyProgressEvents [(1, 3), (2, 3)] initialState).progress.total :=
  ⟨by decide, progress_monotonic_amended.2 [(1, 3), (2, 3)] 3 (by decide)⟩

/-- Claim C9: the confirmDelete loop attempts every confirmed branch
(issuing one delete request per confirmed name, in order, regardless of
earlier failures), and removes from the branch list and the selection set
exactly the names whose request succeeded: a failed name leaves its
branch-list entry and its selection entry in place. -/
theorem confirmDelete_per_branch :
    ∀ (succeeds : String → Bool) (includeRemote : Bool) (toDelete : List String)
      (bs : List BranchRec) (sel : List String),
    (confirmDeleteLoop succeeds includeRemote toDelete bs sel).2.2 =
      toDelete.map (fun n => Request.deleteBranch n includeRemote) ∧
    (confirmDeleteLoop succeeds includeRemote toDelete bs sel).1 =
      bs.filter (fun b => !((toDelete.filter succeeds).contains b.name)) ∧
    (confirmDeleteLoop succeeds includeRemote toDelete bs sel).2.1 =
      sel.filter (fun n => !((toDelete.filter succeeds).contains n)) := by
  intro succeeds includeRemote toDelete
  induction toDelete with
  | nil =>
    intro bs sel
    refine ⟨rfl, ?_, ?_⟩ <;> simp [confirmDeleteLoop]
  | cons name rest ih =>
    intro bs sel
    by_cases h : succeeds name = true
    · obtain ⟨ihr, ihb, ihs⟩ := ih (bs.filter (fun b => !(b.name == name)))
        (sel.filter (fun n => !(n == name)))
      refine ⟨?_, ?_, ?_⟩
      · simp only [confirmDeleteLoop, h, if_true, List.map_cons]
        rw [ihr]
      · simp only [confirmDeleteLoop, h, if_true]
        have hcons : (name :: rest).filter succeeds = name :: rest.filter succeeds := by
          simp [List.filter_cons, h]
        rw [ihb, List.filter_filter, hcons]
        refine List.filter_congr ?_
        intro x _
        rw [List.contains_cons]
        cases h1 : x.name == name <;>
          cases h2 : (rest.filter succeeds).contains x.name <;> simp [h1, h2]
      · simp only [confirmDeleteLoop, h, if_true]
        have hcons : (name :: rest).filter succeeds = name :: rest.filter succeeds := by
          simp [List.filter_cons, h]
        rw [ihs, List.filter_filter, hcons]
        refine List.filter_congr ?_
        intro x _
        rw [List.contains_cons]
        cases h1 : x == name <;>
          cases h2 : (rest.filter succeeds).contains x <;> simp [h1, h2]
    · have h' : succeeds name = false := by
        cases hs : succeeds name
        · rfl
        · exact absurd hs h
      obtain ⟨ihr, ihb, ihs⟩ := ih bs sel
      refine ⟨?_, ?_, ?_⟩
      · simp only [confirmDeleteLoop, h', if_false, List.map_cons, Bool.false_eq_true]
        rw [ihr]
      · simp only [confirmDeleteLoop, h', if_false, Bool.false_eq_true]
        rw [ihb, List.filter_cons, h']
        simp
      · simp only [confirmDeleteLoop, h', if_false, Bool.false_eq_true]
        rw [ihs, List.filter_cons, h']
        simp

/-- One branch event preserves distinctness of the branch names held by
the consumer. -/
theorem handleBranch_nodup (s : ConsumerState) (d : BranchRec)
    (h : (s.branches.map (fun b => b.name)).Nodup) :
    ((handleMessage s (WsMsg.branch d)).branches.map (fun b => b.name)).Nodup := by
  cases hex : s.branches.any (fun b => b.name == d.name) with
  | true => simpa [handleMessage, hex] using h
  | false =>
    have hnot : d.name ∉ s.branches.map (fun b => b.name) := by
      intro hmem
      obtain ⟨b, hb, hbn⟩ := List.mem_map.mp hmem
      have := List.any_eq_false.mp hex b hb
      exact this (by simp [hbn])
    simp only [handleMessage, hex, Bool.false_eq_true, if_false, List.map_append]
    rw [List.nodup_append]
    refine ⟨h, List.nodup_singleton _, ?_⟩
    intro x hx hx2
    simp at hx2
    exact hnot (hx2 ▸ hx)

/-- Folding any sequence of branch events preserves distinctness of the
branch names. -/
theorem applyBranchEvents_nodup (events : List BranchRec) :
    ∀ s : ConsumerState, (s.branches.map (fun b => b.name)).Nodup →
    ((applyBranchEvents events s).branches.map (fun b => b.name)).Nodup := by
  induction events with
  | nil => intro s h; exact h
  | cons d rest ih => intro s h; exact ih _ (handleBranch_nodup s d h)

/-- Claim C8: the branch list never holds two entries with the same name:
a branch event whose name is already present leaves the list unchanged,
any other branch event appends exactly one entry, and from the session
start every processed sequence of branch events keeps the names
pairwise distinct. -/
theorem branch_list_no_duplicates :
    (∀ (s : ConsumerState) (d : BranchRec),
      (s.branches.any (fun b => b.name == d.name) = true →
        (handleMessage s (WsMsg.branch d)).branches = s.branches) ∧
      (s.branches.any (fun b => b.name == d.name) = false →
        (handleMessage s (WsMsg.branch d)).branches = s.branches ++ [d])) ∧
    (∀ events : List BranchRec,
      ((applyBranchEvents events initialState).branches.map (fun b => b.name)).Nodup) := by
  constructor
  · intro s d
    constructor <;> intro h <;> simp [handleMessage, h]
  · intro events
    exact applyBranchEvents_nodup events initialState (by simp [initialState])

/-- Witness for C8 at a concrete input: re-delivering the branch named x
to a state already holding it leaves the branch list unchanged. -/
theorem branch_list_no_duplicates_witness :
    stateWithX.branches.any (fun b => b.name == branchX.name) = true ∧
    (handleMessage stateWithX (WsMsg.branch branchX)).branches = stateWithX.branches :=
  ⟨by decide, (branch_list_no_duplicates.1 stateWithX branchX).1 (by decide)⟩

/-- The emitted result record always carries the name of the branch it was
produced for, on success and on captured failure alike. -/
theorem resultFor_name (n : String) (e : Except String BranchAnalysis) :
    (resultFor n e).name = n := by
  cases e <;> rfl

/-- The branch events of a session carry exactly the discovered branch
names, in order. -/
theorem orchestrate_branch_names (info : RepoInfo)
    (analyze : String → Except String BranchAnalysis) (branchNames : List String) :
    (orchestrate info analyze branchNames).filterMap branchEventName = branchNames := by
  have key : ∀ ns : List String,
      (ns.map (fun n => WsMsg.branch (resultFor n (analyze n)))).filterMap branchEventName
        = ns := by
    intro ns
    induction ns with
    | nil => rfl
    | cons n rest ih =>
      simp only [List.map_cons, List.filterMap_cons]
      show (resultFor n (analyze n)).name ::
        (rest.map (fun n => WsMsg.branch (resultFor n (analyze n)))).filterMap branchEventName
          = n :: rest
      rw [resultFor_name, ih]
  show (WsMsg.repo_info info ::
      (branchNames.map (fun n => WsMsg.branch (resultFor n (analyze n))) ++ [WsMsg.complete])
    ).filterMap branchEventName = branchNames
  rw [List.filterMap_cons]
  show (branchNames.map (fun n => WsMsg.branch (resultFor n (analyze n))) ++ [WsMsg.complete]
    ).filterMap branchEventName = branchNames
  rw [List.filterMap_append, key]
  simp [branchEventName]

/-- Claim C2: no branch is silently dropped.  On the producer side (as
modelled from the spec) a session emits exactly one branch event per
branch discovered at session start, one per name in order (failures ride
on the result as an error field), and the completion event is the last
event of the session.  On the consumer side, with the default empty
search and the all-states filter, every received branch whose status is
one of the five category keys or is missing or empty is grouped under
exactly one of the five categories, a missing or empty status landing in
the no_pr group. -/
theorem every_branch_accounted :
    ∀ (info : RepoInfo) (analyze : String → Except String BranchAnalysis)
      (branchNames : List String) (branches : List BranchRec) (b : BranchRec),
    ((orchestrate info analyze branchNames).filterMap branchEventName = branchNames ∧
      (orchestrate info analyze branchNames).getLast? = some WsMsg.complete) ∧
    (b ∈ branches →
      (b.status = none ∨ b.status = some "" ∨
        ∃ k ∈ BRANCH_CATEGORIES_keys, b.status = some k) →
      categoryOf b ∈ BRANCH_CATEGORIES_keys ∧
      b ∈ categorizedBranches branches "" "all" (categoryOf b) ∧
      ∀ cat, b ∈ categorizedBranches branches "" "all" cat → cat = categoryOf b) := by
  intro info analyze branchNames branches b
  constructor
  · refine ⟨orchestrate_branch_names info analyze branchNames, ?_⟩
    show (WsMsg.repo_info info ::
        (branchNames.map (fun n => WsMsg.branch (resultFor n (analyze n))) ++ [WsMsg.complete])
      ).getLast? = some WsMsg.complete
    rw [← List.cons_append]
    exact List.getLast?_concat _
  · intro hmem hvalid
    have hcat : categoryOf b ∈ BRANCH_CATEGORIES_keys := by
      rcases hvalid with h | h | ⟨k, hk, h⟩
      · simp [categoryOf, jsOr, h, BRANCH_CATEGORIES_keys]
      · simp [categoryOf, jsOr, h, BRANCH_CATEGORIES_keys]
      · have : categoryOf b = k := by
          simp only [BRANCH_CATEGORIES_keys, List.mem_cons, List.not_mem_nil, or_false] at hk
          rcases hk with rfl | rfl | rfl | rfl | rfl <;> simp [categoryOf, jsOr, h]
        rw [this]; exact hk
    refine ⟨hcat, ?_, ?_⟩
    · show b ∈ (filteredBranches branches "" "all").filter
        (fun x => categoryOf x == categoryOf b)
      rw [List.mem_filter]
      refine ⟨?_, by simp⟩
      show b ∈ branches.filter (branchFilter "" "all")
      rw [List.mem_filter]
      refine ⟨hmem, ?_⟩
      show branchFilter "" "all" b = true
      simp [branchFilter, matchesSearch_empty]
    · intro cat hc
      have := (List.mem_filter.mp hc).2
      have h2 : (categoryOf b == cat) = true := this
      exact (beq_iff_eq.mp h2).symm

/-- Witness for C2 at a concrete input: the branch named x, with no
status, is received and grouped under exactly the no_pr category. -/
theorem every_branch_accounted_witness :
    branchX ∈ [branchX] ∧
    (branchX.status = none ∨ branchX.status = some "" ∨
      ∃ k ∈ BRANCH_CATEGORIES_keys, branchX.status = some k) ∧
    (categoryOf branchX ∈ BRANCH_CATEGORIES_keys ∧
      branchX ∈ categorizedBranches [branchX] "" "all" (categoryOf branchX) ∧
      ∀ cat, branchX ∈ categorizedBranches [branchX] "" "all" cat → cat = categoryOf branchX) :=
  ⟨List.mem_singleton.mpr rfl, Or.inl rfl,
    (every_branch_accounted repoInfo0 (fun _ => Except.error "boom") ["x"] [branchX] branchX).2
      (List.mem_singleton.mpr rfl) (Or.inl rfl)⟩

/-- Folding the most-recently-updated step from a seed yields an element
of the seed-or-list that dominates the seed and every list element. -/
theorem mruStep_foldl (l : List PullRequestRef) :
    ∀ b : PullRequestRef,
    ∃ m, l.foldl mruStep (some b) = some m ∧ (m = b ∨ m ∈ l) ∧
      b.updatedAt ≤ m.updatedAt ∧ ∀ q ∈ l, q.updatedAt ≤ m.updatedAt := by
  induction l with
  | nil =>
    intro b
    exact ⟨b, rfl, Or.inl rfl, le_refl _, by simp⟩
  | cons p rest ih =>
    intro b
    show ∃ m, rest.foldl mruStep (mruStep (some b) p) = some m ∧ _
    by_cases h : b.updatedAt < p.updatedAt
    · have hstep : mruStep (some b) p = some p := by simp [mruStep, h]
      obtain ⟨m, hm, hmem, hle, hall⟩ := ih p
      rw [hstep]
      refine ⟨m, hm, ?_, le_of_lt (lt_of_lt_of_le h hle), ?_⟩
      · rcases hmem with rfl | hmem
        · exact Or.inr (List.mem_cons_self _ _)
        · exact Or.inr (List.mem_cons_of_mem _ hmem)
      · intro q hq
        rcases List.mem_cons.mp hq with rfl | hq
        · exact hle
        · exact hall q hq
    · have hstep : mruStep (some b) p = some b := by simp [mruStep, h]
      obtain ⟨m, hm, hmem, hle, hall⟩ := ih b
      rw [hstep]
      refine ⟨m, hm, ?_, hle, ?_⟩
      · rcases hmem with rfl | hmem
        · exact Or.inl rfl
        · exact Or.inr (List.mem_cons_of_mem _ hmem)
      · intro q hq
        rcases List.mem_cons.mp hq with rfl | hq
        · exact le_trans (le_of_not_lt h) hle
        · exact hall q hq

/-- On a nonempty list, mostRecentlyUpdated returns a member whose
updatedAt dominates every member. -/
theorem mostRecentlyUpdated_spec (l : List PullRequestRef) (h : l ≠ []) :
    ∃ m, mostRecentlyUpdated l = some m ∧ m ∈ l ∧
      ∀ q ∈ l, q.updatedAt ≤ m.updatedAt := by
  cases l with
  | nil => exact absurd rfl h
  | cons p rest =>
    obtain ⟨m, hm, hmem, hle, hall⟩ := mruStep_foldl rest p
    refine ⟨m, hm, ?_, ?_⟩
    · rcases hmem with rfl | hmem
      · exact List.mem_cons_self _ _
      · exact List.mem_cons_of_mem _ hmem
    · intro q hq
      rcases List.mem_cons.mp hq with rfl | hq
      · exact hle
      · exact hall q hq

/-- Claim C5 counterexample: on the PR list holding the CLOSED prClosed
first and the more recently updated OPEN prOpen2 second (more than one PR,
no MERGED PR, prOpen2 the most recently updated OPEN one), the o-key
handler of App.jsx opens the CLOSED first entry, not the most recently
updated OPEN PR: the claimed rule does not govern the open-PR-page path
when no MERGED PR exists. -/
theorem open_pr_page_counterexample :
    1 < c5BadPrs.length ∧
    (∀ p ∈ c5BadPrs, p.state ≠ "MERGED") ∧
    prOpen2 ∈ c5BadPrs ∧ prOpen2.state = "OPEN" ∧
    (∀ q ∈ c5BadPrs, q.state = "OPEN" → q.updatedAt ≤ prOpen2.updatedAt) ∧
    frontendOpenPR c5BadPrs = some prClosed ∧
    prClosed.state = "CLOSED" ∧
    frontendOpenPR c5BadPrs ≠ some prOpen2 := by
  decide

/-- Claim C5 amended: for a branch with more than one associated PR, the
authoritative selection (modelled from the spec, since the backend is not
under src/) prefers a MERGED PR; with no MERGED PR it takes the most
recently updated OPEN PR; with neither it takes the most recently updated
CLOSED PR.  When a MERGED PR exists, the frontend lookups used for
diffing and for opening the PR page select that same MERGED PR; when no
MERGED PR exists, the o-key handler opens the first entry of the PR list
regardless of state and recency, so the OPEN and CLOSED tiers of the rule
do not govern the open-PR-page path (the counterexample above). -/
theorem authoritative_pr_selection :
    ∀ prs : List PullRequestRef, 1 < prs.length →
    ((∃ p ∈ prs, p.state = "MERGED") →
      ∃ m, selectAuthoritativePR prs = some m ∧ m ∈ prs ∧ m.state = "MERGED" ∧
        findMergedPR prs = some m ∧ frontendOpenPR prs = some m) ∧
    ((∀ p ∈ prs, p.state ≠ "MERGED") → (∃ p ∈ prs, p.state = "OPEN") →
      ∃ m, selectAuthoritativePR prs = some m ∧ m ∈ prs ∧ m.state = "OPEN" ∧
        ∀ q ∈ prs, q.state = "OPEN" → q.updatedAt ≤ m.updatedAt) ∧
    ((∀ p ∈ prs, p.state ≠ "MERGED" ∧ p.state ≠ "OPEN") →
      (∃ p ∈ prs, p.state = "CLOSED") →
      ∃ m, selectAuthoritativePR prs = some m ∧ m ∈ prs ∧ m.state = "CLOSED" ∧
        ∀ q ∈ prs, q.state = "CLOSED" → q.updatedAt ≤ m.updatedAt) ∧
    ((∀ p ∈ prs, p.state ≠ "MERGED") → frontendOpenPR prs = prs.head?) := by
  intro prs _
  refine ⟨?_, ?_, ?_, ?_⟩
  · intro h
    obtain ⟨p, hp, hps⟩ := h
    have hsome : (List.find? (fun pr => pr.state == "MERGED") prs).isSome = true := by
      rw [List.find?_isSome]
      exact ⟨p, hp, by simp [hps]⟩
    obtain ⟨m, hm'⟩ := Option.isSome_iff_exists.mp hsome
    have hm : findMergedPR prs = some m := hm'
    refine ⟨m, ?_, List.mem_of_find?_eq_some hm', ?_, hm, ?_⟩
    · show (match findMergedPR prs with
        | some p => some p
        | none => _) = some m
      rw [hm]
    · simpa using List.find?_some hm'
    · show (match findMergedPR prs with
        | some p => some p
        | none => prs.head?) = some m
      rw [hm]
  · intro hno hopen
    have hnone' : List.find? (fun pr => pr.state == "MERGED") prs = none := by
      rw [List.find?_eq_none]
      intro p hp
      simp [hno p hp]
    have hnone : findMergedPR prs = none := hnone'
    obtain ⟨p, hp, hps⟩ := hopen
    have hne : prs.filter (fun q => q.state == "OPEN") ≠ [] :=
      List.ne_nil_of_mem (List.mem_filter.mpr ⟨hp, by simp [hps]⟩)
    obtain ⟨m, hm, hmem, hall⟩ := mostRecentlyUpdated_spec _ hne
    have hmm := List.mem_filter.mp hmem
    refine ⟨m, ?_, hmm.1, beq_iff_eq.mp hmm.2, ?_⟩
    · show (match findMergedPR prs with
        | some p => some p
        | none => _) = some m
      rw [hnone]
      show (match mostRecentlyUpdated (prs.filter (fun q => q.state == "OPEN")) with
        | some p => some p
        | none => mostRecentlyUpdated (prs.filter (fun q => q.state == "CLOSED"))) = some m
      rw [hm]
    · intro q hq hqs
      exact hall q (List.mem_filter.mpr ⟨hq, by simp [hqs]⟩)
  · intro hno hclosed
    have hnone' : List.find? (fun pr => pr.state == "MERGED") prs = none := by
      rw [List.find?_eq_none]
      intro p hp
      simp [(hno p hp).1]
    have hnone : findMergedPR prs = none := hnone'
    have hopen_nil : prs.filter (fun q => q.state == "OPEN") = [] := by
      rw [List.filter_eq_nil_iff]
      intro p hp
      simp [(hno p hp).2]
    obtain ⟨p, hp, hps⟩ := hclosed
    have hne : prs.filter (fun q => q.state == "CLOSED") ≠ [] :=
      List.ne_nil_of_mem (List.mem_filter.mpr ⟨hp, by simp [hps]⟩)
    obtain ⟨m, hm, hmem, hall⟩ := mostRecentlyUpdated_spec _ hne
    have hmm := List.mem_filter.mp hmem
    refine ⟨m, ?_, hmm.1, beq_iff_eq.mp hmm.2, ?_⟩
    · show (match findMergedPR prs with
        | some p => some p
        | none => _) = some m
      rw [hnone]
      show (match mostRecentlyUpdated (prs.filter (fun q => q.state == "OPEN")) with
        | some p => some p
        | none => mostRecentlyUpdated (prs.filter (fun q => q.state == "CLOSED"))) = some m
      rw [hopen_nil]
      have hmru_nil : mostRecentlyUpdated ([] : List PullRequestRef) = none := rfl
      rw [hmru_nil]
      exact hm
    · intro q hq hqs
      exact hall q (List.mem_filter.mpr ⟨hq, by simp [hqs]⟩)
  · intro hno
    have hnone' : List.find? (fun pr => pr.state == "MERGED") prs = none := by
      rw [List.find?_eq_none]
      intro p hp
      simp [hno p hp]
    have hnone : findMergedPR prs = none := hnone'
    show (match findMergedPR prs with
      | some p => some p
      | none => prs.head?) = prs.head?
    rw [hnone]

/-- Witness for C5 at a concrete input: a two-PR list with one MERGED PR
selects that MERGED PR, and the frontend lookups agree. -/
theorem authoritative_pr_selection_witness :
    1 < c5prs.length ∧ (∃ p ∈ c5prs, p.state = "MERGED") ∧
    ∃ m, selectAuthoritativePR c5prs = some m ∧ m ∈ c5prs ∧ m.state = "MERGED" ∧
      findMergedPR c5prs = some m ∧ frontendOpenPR c5prs = some m :=
  ⟨by decide, ⟨prMerged, by decide, rfl⟩,
    (authoritative_pr_selection c5prs (by decide)).1 ⟨prMerged, by decide, rfl⟩⟩

/-- Claim C7, evaluated at the failing input: for a branch with no
differences but a MERGED PR number 42, the branch card hides its
view-diff button, so the only user path to its diff is the Enter key,
and the Enter handler issues the diff request with PR number 42 rather
than 0; the endpoint then serves a PR comparison, not a merge-base diff.
The cited onViewDiff wrapper would indeed have collapsed the number to 0
on this input, but the Enter path bypasses it. -/
theorem no_differences_diff_request_eval :
    cardShowsViewDiffButton c7FailingBranch = false ∧
    enterKeyDiffRequest c7FailingBranch = Request.getDiff "feature-x" 42 ∧
    (diffDetailResponse 42 [] []).is_merge_base_diff = false ∧
    diffViewerLeftTitle (diffDetailResponse 42 [] []) = "Merged PR" ∧
    effectivePrNumber (onViewDiffArg c7FailingBranch.has_differences (some 42)) = 0 := by
  refine ⟨rfl, rfl, rfl, rfl, rfl⟩

/-! ## Lexicographic order lemmas for the file-list sort -/

/-- Cons characterization of the lexicographic comparison. -/
theorem lexLe_cons (a b : Char) (as bs : List Char) :
    lexLe (a :: as) (b :: bs) = true ↔
      a.toNat < b.toNat ∨ (a.toNat = b.toNat ∧ lexLe as bs = true) := by
  show (if a.toNat < b.toNat then true
    else if b.toNat < a.toNat then false else lexLe as bs) = true ↔ _
  by_cases h1 : a.toNat < b.toNat
  · rw [if_pos h1]
    simp [h1]
  · rw [if_neg h1]
    by_cases h2 : b.toNat < a.toNat
    · rw [if_pos h2]
      constructor
      · intro h; cases h
      · rintro (h | ⟨h, _⟩)
        · exact absurd h h1
        · exact absurd h (by omega)
    · rw [if_neg h2]
      have h3 : a.toNat = b.toNat := by omega
      simp [h1, h3]

/-- The lexicographic comparison is total. -/
theorem lexLe_total : ∀ x y : List Char, lexLe x y = true ∨ lexLe y x = true := by
  intro x
  induction x with
  | nil => intro y; exact Or.inl rfl
  | cons a as ih =>
    intro y
    cases y with
    | nil => exact Or.inr rfl
    | cons b bs =>
      rcases Nat.lt_trichotomy a.toNat b.toNat with h | h | h
      · exact Or.inl ((lexLe_cons a b as bs).mpr (Or.inl h))
      · rcases ih bs with h2 | h2
        · exact Or.inl ((lexLe_cons a b as bs).mpr (Or.inr ⟨h, h2⟩))
        · exact Or.inr ((lexLe_cons b a bs as).mpr (Or.inr ⟨h.symm, h2⟩))
      · exact Or.inr ((lexLe_cons b a bs as).mpr (Or.inl h))

/-- The lexicographic comparison is transitive. -/
theorem lexLe_trans :
    ∀ x y z : List Char, lexLe x y = true → lexLe y z = true → lexLe x z = true := by
  intro x
  induction x with
  | nil => intro y z _ _; rfl
  | cons a as ih =>
    intro y z hxy hyz
    cases y with
    | nil => simp [lexLe] at hxy
    | cons b bs =>
      cases z with
      | nil => simp [lexLe] at hyz
      | cons c cs =>
        rcases (lexLe_cons a b as bs).mp hxy with hab | ⟨hab, habs⟩ <;>
          rcases (lexLe_cons b c bs cs).mp hyz with hbc | ⟨hbc, hbcs⟩
        · exact (lexLe_cons a c as cs).mpr (Or.inl (lt_trans hab hbc))
        · exact (lexLe_cons a c as cs).mpr (Or.inl (hbc ▸ hab))
        · exact (lexLe_cons a c as cs).mpr (Or.inl (hab ▸ hbc))
        · exact (lexLe_cons a c as cs).mpr (Or.inr ⟨hab.trans hbc, ih bs cs habs hbcs⟩)

/-! ## Set and map lemmas for the file list -/

/-- Membership after folding Set insertions: the accumulated elements plus
the inserted ones. -/
theorem mem_foldl_insertUnique (l : List String) :
    ∀ (acc : List String) (x : String),
    x ∈ l.foldl insertUnique acc ↔ x ∈ acc ∨ x ∈ l := by
  induction l with
  | nil => intro acc x; simp
  | cons a rest ih =>
    intro acc x
    show x ∈ rest.foldl insertUnique (insertUnique acc a) ↔ _
    rw [ih]
    unfold insertUnique
    by_cases h : acc.contains a = true
    · have ha : a ∈ acc := List.elem_iff.mp h
      rw [if_pos h, List.mem_cons]
      constructor
      · rintro (hx | hx)
        · exact Or.inl hx
        · exact Or.inr (Or.inr hx)
      · rintro (hx | rfl | hx)
        · exact Or.inl hx
        · exact Or.inl ha
        · exact Or.inr hx
    · rw [if_neg h, List.mem_append, List.mem_singleton, List.mem_cons]
      constructor
      · rintro ((hx | rfl) | hx)
        · exact Or.inl hx
        · exact Or.inr (Or.inl rfl)
        · exact Or.inr (Or.inr hx)
      · rintro (hx | rfl | hx)
        · exact Or.inl (Or.inl hx)
        · exact Or.inl (Or.inr rfl)
        · exact Or.inr hx

/-- Folding Set insertions preserves distinctness. -/
theorem nodup_foldl_insertUnique (l : List String) :
    ∀ acc : List String, acc.Nodup → (l.foldl insertUnique acc).Nodup := by
  induction l with
  | nil => intro acc h; exact h
  | cons a rest ih =>
    intro acc h
    refine ih _ ?_
    unfold insertUnique
    by_cases hc : acc.contains a = true
    · rw [if_pos hc]; exact h
    · rw [if_neg hc, List.nodup_append]
      refine ⟨h, List.nodup_singleton _, ?_⟩
      intro x hx hx2
      rw [List.mem_singleton] at hx2
      subst hx2
      exact hc (List.elem_iff.mpr hx)

/-- The Map lookup misses exactly the filenames absent from the list. -/
theorem mapGet_eq_none (files : List FileChange) (fn : String) :
    mapGet files fn = none ↔ fn ∉ files.map (fun f => f.filename) := by
  unfold mapGet
  rw [List.find?_eq_none]
  constructor
  · intro h hmem
    obtain ⟨f, hf, hfn⟩ := List.mem_map.mp hmem
    exact h f (List.mem_reverse.mpr hf) (by simp [hfn])
  · intro h x hx hbeq
    exact h (List.mem_map.mpr ⟨x, List.mem_reverse.mp hx, beq_iff_eq.mp hbeq⟩)

/-- A successful Map lookup returns a record of the list carrying the
looked-up filename. -/
theorem mapGet_some (files : List FileChange) (fn : String) (c : FileChange)
    (h : mapGet files fn = some c) : c ∈ files ∧ c.filename = fn := by
  unfold mapGet at h
  exact ⟨List.mem_reverse.mp (List.mem_of_find?_eq_some h),
    by simpa using List.find?_some h⟩

/-- A filename present in the list is found by the Map lookup. -/
theorem mapGet_isSome (files : List FileChange) (fn : String)
    (h : fn ∈ files.map (fun f => f.filename)) : (mapGet files fn).isSome = true := by
  unfold mapGet
  rw [List.find?_isSome]
  obtain ⟨f, hf, hfn⟩ := List.mem_map.mp h
  exact ⟨f, List.mem_reverse.mpr hf, by simp [hfn]⟩

/-- Each built file-list entry carries the filename it was built for. -/
theorem parsedFileFor_filename (bf pf : List FileChange) (fn : String) :
    (parsedFileFor bf pf fn).filename = fn := rfl

/-- The filenames of the unsorted file list are exactly the collected
filenames. -/
theorem preSort_names (bf pf : List FileChange) :
    ((allFilenames bf pf).map (parsedFileFor bf pf)).map (fun f => f.filename)
      = allFilenames bf pf := by
  rw [List.map_map]
  exact List.map_id'' (fun x => rfl) _

/-- Claim C10: in the DiffViewer file list, every filename occurring in
either DiffSet appears exactly once, the list is sorted by filename, a
file present only in the branch diff is added-in-branch, a file present
only in the PR diff is removed-in-branch, and a file present in both
takes added, deleted or modified from the branch-side change record. -/
theorem diff_file_list_spec :
    ∀ bf pf : List FileChange,
    (∀ fn, fn ∈ (parsedDiffs bf pf).map (fun f => f.filename) ↔
      fn ∈ bf.map (fun f => f.filename) ∨ fn ∈ pf.map (fun f => f.filename)) ∧
    ((parsedDiffs bf pf).map (fun f => f.filename)).Nodup ∧
    List.Sorted fileLE (parsedDiffs bf pf) ∧
    (∀ f ∈ parsedDiffs bf pf,
      (f.filename ∉ pf.map (fun g => g.filename) → f.status = "added-in-branch") ∧
      (f.filename ∈ pf.map (fun g => g.filename) →
        f.filename ∉ bf.map (fun g => g.filename) → f.status = "removed-in-branch") ∧
      (f.filename ∈ pf.map (fun g => g.filename) →
        f.filename ∈ bf.map (fun g => g.filename) →
        ∃ c ∈ bf, c.filename = f.filename ∧
          f.status = (if c.status = "A" then "added"
            else if c.status = "D" then "deleted" else "modified"))) := by
  intro bf pf
  have hperm : (parsedDiffs bf pf).Perm
      ((allFilenames bf pf).map (parsedFileFor bf pf)) :=
    List.perm_insertionSort fileLE _
  have hpermN : ((parsedDiffs bf pf).map (fun f => f.filename)).Perm
      (allFilenames bf pf) := by
    have h2 := hperm.map (fun f => f.filename)
    rwa [preSort_names] at h2
  refine ⟨?_, ?_, ?_, ?_⟩
  · intro fn
    rw [hpermN.mem_iff]
    show fn ∈ ((bf ++ pf).map (fun f => f.filename)).foldl insertUnique [] ↔ _
    rw [mem_foldl_insertUnique]
    simp [List.map_append]
  · exact hpermN.symm.nodup (nodup_foldl_insertUnique _ [] List.nodup_nil)
  · haveI : IsTotal ParsedFile fileLE := ⟨fun a b => lexLe_total _ _⟩
    haveI : IsTrans ParsedFile fileLE := ⟨fun a b c => lexLe_trans _ _ _⟩
    exact List.sorted_insertionSort fileLE _
  · intro f hf
    have hf2 : f ∈ (allFilenames bf pf).map (parsedFileFor bf pf) := hperm.subset hf
    obtain ⟨fn, hfn, rfl⟩ := List.mem_map.mp hf2
    refine ⟨?_, ?_, ?_⟩
    · intro hnp
      rw [parsedFileFor_filename] at hnp
      have hp : mapGet pf fn = none := (mapGet_eq_none pf fn).mpr hnp
      show fileStatus (mapGet bf fn) (mapGet pf fn) = "added-in-branch"
      rw [hp]
      rfl
    · intro hp hnb
      rw [parsedFileFor_filename] at hp hnb
      obtain ⟨cp, hcp⟩ := Option.isSome_iff_exists.mp (mapGet_isSome pf fn hp)
      have hb : mapGet bf fn = none := (mapGet_eq_none bf fn).mpr hnb
      show fileStatus (mapGet bf fn) (mapGet pf fn) = "removed-in-branch"
      rw [hb, hcp]
      rfl
    · intro hp hb
      rw [parsedFileFor_filename] at hp hb
      obtain ⟨cp, hcp⟩ := Option.isSome_iff_exists.mp (mapGet_isSome pf fn hp)
      obtain ⟨c, hc⟩ := Option.isSome_iff_exists.mp (mapGet_isSome bf fn hb)
      obtain ⟨hcmem, hcfn⟩ := mapGet_some bf fn c hc
      refine ⟨c, hcmem, hcfn, ?_⟩
      show fileStatus (mapGet bf fn) (mapGet pf fn) = _
      rw [hc, hcp]
      show (if c.status == "A" then "added"
        else if c.status == "D" then "deleted" else "modified") = _
      by_cases hA : c.status = "A"
      · simp [hA]
      · by_cases hD : c.status = "D"
        · simp [hA, hD]
        · simp [hA, hD]

/-- Witness for C10 at a concrete input: with branch DiffSet holding only
a.txt and PR DiffSet holding only b.txt, the entry for a.txt is in the
parsed file list and is classified added-in-branch. -/
theorem diff_file_list_spec_witness :
    (⟨"a.txt", "added-in-branch", some "A", none⟩ : ParsedFile) ∈
      parsedDiffs c10BranchFiles c10PrFiles ∧
    "a.txt" ∉ c10PrFiles.map (fun g => g.filename) ∧
    (⟨"a.txt", "added-in-branch", some "A", none⟩ : ParsedFile).status =
      "added-in-branch" := by
  refine ⟨by decide, by decide, ?_⟩
  exact ((diff_file_list_spec c10BranchFiles c10PrFiles).2.2.2
    (⟨"a.txt", "added-in-branch", some "A", none⟩ : ParsedFile) (by decide)).1 (by decide)
